import Mathlib

/-!
Verification development for the Safe-Delete & Recovery Engine
(plex-poster-manager, `src/backend/file_manager.py` and
`src/backend/plex_scanner.py`).

The filesystem is modelled as a finite set of paths: an original file lives
at `FPath.orig p` (its absolute path string) and a relocated backup lives at
`FPath.backup ns name` (namespace directory `ns` = the timestamp string,
leaf filename `name`).  Timestamps are threaded as explicit parameters
standing for the `datetime.now()` calls of the source; I/O never fails in
the model except where the control flow of the source itself produces a
failure result (missing source, missing backup, out-of-range id).
-/

namespace PlexFM

/-- Leaf filename of a path, mirroring Python's `Path(file_path).name`
(the component after the last slash; written as a structural fold that
restarts at every separator). -/
def leafName (p : String) : String :=
  String.mk (p.toList.foldl (fun acc c => if c = '/' then [] else acc ++ [c]) [])

/-- A location on disk: either an original file at an absolute path, or a
backup file inside a timestamp-named namespace directory of the backup
root (`backup_dir / ns / name` in the source). -/
inductive FPath where
  | orig (p : String)
  | backup (ns : String) (name : String)
deriving DecidableEq, Repr

/-- One audit record of `operations.json`, as written by
`FileManager.delete_file` (the two optional markers are absent at creation:
`undone_at = none`, `permanently_deleted = false` models the absent key,
which `dict.get` treats as unset). -/
structure Operation where
  id : Nat
  timestamp : String
  action : String
  original_path : String
  backup_path : FPath
  reason : String
  can_undo : Bool
  undone_at : Option String
  permanently_deleted : Bool
deriving DecidableEq, Repr

/-- State of the engine: the in-memory (= persisted) operations list, the
set of files on disk, and the set of existing backup namespace
directories. -/
structure FMState where
  operations : List Operation
  files : List FPath
  namespaces : List String
deriving DecidableEq, Repr

/-- Insert into a duplicate-free list modelling a set of paths /
directory names. -/
def insertUnique {α : Type} [DecidableEq α] (a : α) (l : List α) : List α :=
  if a ∈ l then l else a :: l

/-- Result of `FileManager.delete_file`: either the
`{"success": False, "error": "File does not exist"}` dictionary, or the
success dictionary carrying `operation_id` and `backup_path`. -/
inductive DelOutcome where
  | sourceMissing
  | deleted (operation_id : Nat) (backup_path : FPath)
deriving DecidableEq, Repr

/-- Result of `undo_operation` / `permanently_delete_backup`.
`notFound` is `"Operation not found"`, `cannotUndo` is
`"Operation cannot be undone"` (the spec's AlreadyFinalized),
`backupNotFound` is `"Backup file not found"` (the spec's BackupMissing),
`indexError` is the uncaught `IndexError` raised by
`self.operations[operation_id]` when a negative id is below `-len`. -/
inductive OpOutcome where
  | notFound
  | cannotUndo
  | backupNotFound
  | indexError
  | restored (path : String)
  | purged
deriving DecidableEq, Repr

/-- `FileManager.delete_file`: move the file into the timestamp namespace
(creating the namespace directory), append an Operation whose id is the
current length of the log, or report failure when the source is absent.
`ts` stands for `datetime.now().strftime("%Y%m%d_%H%M%S")`. -/
def delete_file (s : FMState) (ts : String) (file_path : String) (reason : String) :
    DelOutcome × FMState :=
  if FPath.orig file_path ∈ s.files then
    let destination := FPath.backup ts (leafName file_path)
    let operation : Operation :=
      { id := s.operations.length, timestamp := ts, action := "delete",
        original_path := file_path, backup_path := destination, reason := reason,
        can_undo := true, undone_at := none, permanently_deleted := false }
    (DelOutcome.deleted operation.id destination,
     { operations := s.operations ++ [operation],
       files := insertUnique destination (s.files.erase (FPath.orig file_path)),
       namespaces := insertUnique ts s.namespaces })
  else (DelOutcome.sourceMissing, s)

/-- One per-file entry of a `delete_multiple` result list
(`{"file": file_path, **result}` in the source). -/
structure FileResult where
  file : String
  res : DelOutcome
deriving DecidableEq, Repr

/-- The `success` key of a per-file result. -/
def FileResult.success (r : FileResult) : Bool :=
  match r.res with
  | DelOutcome.deleted _ _ => true
  | DelOutcome.sourceMissing => false

/-- The `operation_id` key of a per-file result (absent on failure). -/
def FileResult.operationId (r : FileResult) : Option Nat :=
  match r.res with
  | DelOutcome.deleted i _ => some i
  | DelOutcome.sourceMissing => none

/-- The dictionary returned by `FileManager.delete_multiple`. -/
structure BatchResult where
  batch_id : Nat
  timestamp : String
  total : Nat
  results : List FileResult
deriving DecidableEq, Repr

/-- The loop body of `delete_multiple`: delete each file in order,
threading the state. -/
def runDeletes (s : FMState) (ts : String) (paths : List String) (reason : String) :
    List FileResult × FMState :=
  match paths with
  | [] => ([], s)
  | p :: ps =>
    let r := delete_file s ts p reason
    let rest := runDeletes r.2 ts ps reason
    (⟨p, r.1⟩ :: rest.1, rest.2)

/-- `FileManager.delete_multiple`: `batch_id = len(self.operations)` read
before the loop, `total = len(file_paths)`, one result per input path in
order.  The single `ts` parameter stands for the `datetime.now()` readings
of the batch and of every per-file call (all properties proved below are
independent of the clock values). -/
def delete_multiple (s : FMState) (ts : String) (file_paths : List String) (reason : String) :
    BatchResult × FMState :=
  let batch_id := s.operations.length
  let r := runDeletes s ts file_paths reason
  ({ batch_id := batch_id, timestamp := ts, total := file_paths.length, results := r.1 }, r.2)

/-- Python list indexing semantics for `self.operations[operation_id]`:
nonnegative ids index from the front, negative ids from the back, and an
id below `-len` raises IndexError (`none`). -/
def pyIndex (len : Nat) (oid : Int) : Option Nat :=
  if 0 ≤ oid then some oid.toNat
  else if 0 ≤ (len : Int) + oid then some ((len : Int) + oid).toNat
  else none

/-- `FileManager.undo_operation`: guard `operation_id >= len(self.operations)`,
Python indexing, the `can_undo` check, the backup-existence check, then the
move back (recreating parent directories, which the path-set model absorbs)
and the log update setting `can_undo = False` and `undone_at`. -/
def undo_operation (s : FMState) (now : String) (operation_id : Int) :
    OpOutcome × FMState :=
  if (s.operations.length : Int) ≤ operation_id then (OpOutcome.notFound, s)
  else
    match pyIndex s.operations.length operation_id with
    | none => (OpOutcome.indexError, s)
    | some idx =>
      match s.operations[idx]? with
      | none => (OpOutcome.indexError, s)
      | some operation =>
        if operation.can_undo = false then (OpOutcome.cannotUndo, s)
        else if operation.backup_path ∈ s.files then
          (OpOutcome.restored operation.original_path,
           { s with
             files := insertUnique (FPath.orig operation.original_path)
                        (s.files.erase operation.backup_path),
             operations := s.operations.set idx
               { operation with can_undo := false, undone_at := some now } })
        else (OpOutcome.backupNotFound, s)

/-- `FileManager.permanently_delete_backup`: guard
`operation_id >= len(self.operations)`, Python indexing, the
backup-existence check (note: no `can_undo` check in the source), then
`unlink` and the log update setting `can_undo = False` and
`permanently_deleted = True`. -/
def permanently_delete_backup (s : FMState) (operation_id : Int) :
    OpOutcome × FMState :=
  if (s.operations.length : Int) ≤ operation_id then (OpOutcome.notFound, s)
  else
    match pyIndex s.operations.length operation_id with
    | none => (OpOutcome.indexError, s)
    | some idx =>
      match s.operations[idx]? with
      | none => (OpOutcome.indexError, s)
      | some operation =>
        if operation.backup_path ∈ s.files then
          (OpOutcome.purged,
           { s with
             files := s.files.erase operation.backup_path,
             operations := s.operations.set idx
               { operation with can_undo := false, permanently_deleted := true } })
        else (OpOutcome.backupNotFound, s)

/-- `FileManager.get_recent_operations`: `self.operations[-limit:][::-1]`.
Python's `[-limit:]` is the whole list when `limit = 0` and the last
`min(limit, len)` elements when `limit ≥ 1`. -/
def get_recent_operations (s : FMState) (limit : Nat) : List Operation :=
  (if limit = 0 then s.operations
   else s.operations.drop (s.operations.length - limit)).reverse

/-- Gregorian leap year, as validated by `datetime`. -/
def isLeapYear (y : Nat) : Bool :=
  (y % 4 == 0 && y % 100 != 0) || y % 400 == 0

/-- Number of days of month `m` of year `y` (`datetime` day-range
validation). -/
def daysInMonth (y m : Nat) : Nat :=
  if m = 2 then (if isLeapYear y then 29 else 28)
  else if m = 4 ∨ m = 6 ∨ m = 9 ∨ m = 11 then 30 else 31

/-- Days in the months of year `y` strictly before month `m`. -/
def daysBeforeMonth (y m : Nat) : Nat :=
  (List.range (m - 1)).foldl (fun a i => a + daysInMonth y (i + 1)) 0

/-- Days in proleptic-Gregorian years strictly before year `y` (`y ≥ 1`). -/
def daysBeforeYear (y : Nat) : Nat :=
  (y - 1) * 365 + (y - 1) / 4 - (y - 1) / 100 + (y - 1) / 400

/-- Seconds since the Unix epoch of the given calendar datetime, the value
of `datetime(...).timestamp()` (719162 days separate year 1 from 1970). -/
def epochOfDateTime (y mo d hh mi ss : Nat) : Int :=
  (((daysBeforeYear y + daysBeforeMonth y mo + (d - 1) : Nat) : Int) - 719162) * 86400
    + ((hh * 3600 + mi * 60 + ss : Nat) : Int)

/-- Numeric value of a list of decimal digit characters. -/
def digitsToNat (cs : List Char) : Nat :=
  cs.foldl (fun a c => a * 10 + (c.toNat - 48)) 0

/-- The name-to-timestamp parse of `clean_old_backups`: the
`folder.name.replace("_", "").isdigit()` pre-check followed by
`datetime.strptime(folder.name, "%Y%m%d_%H%M%S").timestamp()`, with
`ValueError` mapped to `none`.  Modelled on the canonical zero-padded
15-character form `YYYYMMDD_HHMMSS` that `delete_file` always writes
(CPython's regex would additionally accept some non-padded variants that
this engine never produces). -/
def parseFolderName (name : String) : Option Int :=
  let cs := name.toList
  if cs.length = 15 ∧ (cs.take 8).all Char.isDigit ∧ cs.get? 8 = some '_'
      ∧ (cs.drop 9).all Char.isDigit then
    let y := digitsToNat (cs.take 4)
    let mo := digitsToNat ((cs.drop 4).take 2)
    let d := digitsToNat ((cs.drop 6).take 2)
    let hh := digitsToNat ((cs.drop 9).take 2)
    let mi := digitsToNat ((cs.drop 11).take 2)
    let ss := digitsToNat ((cs.drop 13).take 2)
    if 1 ≤ y ∧ 1 ≤ mo ∧ mo ≤ 12 ∧ 1 ≤ d ∧ d ≤ daysInMonth y mo
        ∧ hh ≤ 23 ∧ mi ≤ 59 ∧ ss ≤ 59 then
      some (epochOfDateTime y mo d hh mi ss)
    else none
  else none

/-- Whether the sweep removes a directory of this name under the given
cutoff: the name parses and its timestamp is strictly older. -/
def sweepRemoves (cutoff : Int) (name : String) : Bool :=
  match parseFolderName name with
  | some ts => decide (ts < cutoff)
  | none => false

/-- `FileManager.clean_old_backups`: `cutoff = now - days * 86400`, iterate
the namespace directories, `shutil.rmtree` (directory and contained backup
files) every one whose name parses to a timestamp older than the cutoff,
collecting the removed names; names that do not parse are skipped.
`now` stands for `datetime.now().timestamp()`. -/
def clean_old_backups (s : FMState) (now : Int) (days : Nat) :
    List String × FMState :=
  let cutoff : Int := now - (days : Int) * 86400
  let r := s.namespaces.foldl
    (fun (acc : List String × List String × List FPath) n =>
      if sweepRemoves cutoff n then
        (acc.1 ++ [n], acc.2.1,
         acc.2.2.filter (fun p =>
           match p with
           | FPath.backup ns _ => decide (ns ≠ n)
           | FPath.orig _ => true))
      else (acc.1, acc.2.1 ++ [n], acc.2.2))
    ([], [], s.files)
  (r.1, { s with namespaces := r.2.1, files := r.2.2 })

/-- External truncation of the persisted `operations.json` to its first `k`
records followed by a restart (`_load_operations` reloads the truncated
log); not an operation of the engine itself. -/
def truncateLog (s : FMState) (k : Nat) : FMState :=
  { s with operations := s.operations.take k }

/-- One call into the engine, for building reachable states. -/
inductive Ev where
  | del (ts path reason : String)
  | undo (now : String) (oid : Int)
  | purge (oid : Int)
  | sweep (now : Int) (days : Nat)
deriving DecidableEq, Repr

/-- State transformer of one call. -/
def applyEv (s : FMState) : Ev → FMState
  | Ev.del ts p r => (delete_file s ts p r).2
  | Ev.undo now oid => (undo_operation s now oid).2
  | Ev.purge oid => (permanently_delete_backup s oid).2
  | Ev.sweep now days => (clean_old_backups s now days).2

/-- Run a sequence of calls. -/
def run (s : FMState) (evs : List Ev) : FMState := evs.foldl applyEv s

/-- Fresh engine over a disk holding the given (distinct) original files:
empty log, no backup namespaces. -/
def initState (origs : List String) : FMState :=
  { operations := [], files := origs.map FPath.orig, namespaces := [] }

/-- A state is reachable when some sequence of calls produces it from a
fresh engine. -/
def Reachable (s : FMState) : Prop :=
  ∃ origs evs, run (initState origs) evs = s

/-- Whether an event is a retention sweep. -/
def Ev.isSweep : Ev → Bool
  | Ev.sweep _ _ => true
  | _ => false

/-- The backup-destination key of a delete event: its timestamp namespace
together with the leaf filename it relocates. -/
def Ev.delKey? : Ev → Option (String × String)
  | Ev.del ts p _ => some (ts, leafName p)
  | _ => none

end PlexFM

namespace PlexScan

/-- One artwork file record of a scan result (`file_info` in
`plex_scanner.py`); `hash` is `""` for unreadable files
(`_get_file_hash` returns `""` on any exception). -/
structure FileInfo where
  path : String
  hash : String
deriving DecidableEq, Repr

/-- One scanned item: its artwork dictionary, a list of
(artwork type, file list) entries in insertion order. -/
structure ScanItem where
  artwork : List (String × List FileInfo)
deriving DecidableEq, Repr

/-- The stream of artwork file records visited by the triple loop of
`find_duplicates`, in visit order. -/
def allFiles (items : List ScanItem) : List FileInfo :=
  items.foldr (fun it acc =>
    it.artwork.foldr (fun tf acc2 => tf.2 ++ acc2) acc) []

/-- Lookup in the `hash_map` dictionary. -/
def lookupHash (m : List (String × FileInfo)) (h : String) : Option FileInfo :=
  (m.find? (fun kv => kv.1 == h)).map (fun kv => kv.2)

/-- Assignment `hash_map[file_hash] = file_info` (replace or append). -/
def setHash (m : List (String × FileInfo)) (h : String) (fi : FileInfo) :
    List (String × FileInfo) :=
  if (m.find? (fun kv => kv.1 == h)).isSome then
    m.map (fun kv => if kv.1 == h then (kv.1, fi) else kv)
  else m ++ [(h, fi)]

/-- Loop body of `PlexScanner.find_duplicates`: when the hash is truthy and
already present, emit the pair (first-seen entry, current entry) and leave
the map unchanged; otherwise store the current entry. -/
def dupStep (acc : List (String × FileInfo) × List (FileInfo × FileInfo))
    (fi : FileInfo) : List (String × FileInfo) × List (FileInfo × FileInfo) :=
  match (if fi.hash = "" then none else lookupHash acc.1 fi.hash) with
  | some first => (acc.1, acc.2 ++ [(first, fi)])
  | none => (setHash acc.1 fi.hash fi, acc.2)

/-- `PlexScanner.find_duplicates`. -/
def find_duplicates (items : List ScanItem) : List (FileInfo × FileInfo) :=
  ((allFiles items).foldl dupStep ([], [])).2

/-- Declarative first-occurrence description of the duplicate pairs:
`pre` is the list of already-visited entries; an entry with a nonempty
hash that some earlier entry already carries is paired with the earliest
such entry. -/
def dupPairs (pre : List FileInfo) : List FileInfo → List (FileInfo × FileInfo)
  | [] => []
  | fi :: rest =>
    if fi.hash = "" then dupPairs (pre ++ [fi]) rest
    else
      match pre.find? (fun e => e.hash == fi.hash) with
      | some first => (first, fi) :: dupPairs pre rest
      | none => dupPairs (pre ++ [fi]) rest

/-- The dictionary `hash_map` agrees, on every truthy (nonempty) hash,
with first-occurrence search over the visited entries `pre`. -/
def HashMapRel (m : List (String × FileInfo)) (pre : List FileInfo) : Prop :=
  ∀ h : String, h ≠ "" → lookupHash m h = pre.find? (fun e => e.hash == h)

/-- Example entry A with hash h1. -/
def fiA : FileInfo := { path := "A", hash := "h1" }

/-- Example entry B with the same hash h1. -/
def fiB : FileInfo := { path := "B", hash := "h1" }

/-- Example entry C with a different hash h2. -/
def fiC : FileInfo := { path := "C", hash := "h2" }

/-- One scanned item carrying A, B (posters) and C (art). -/
def exItems : List ScanItem := [⟨[("poster", [fiA, fiB]), ("art", [fiC])]⟩]

end PlexScan

namespace PlexFM

/-- Concrete timestamps for example states (second-resolution, in the
`%Y%m%d_%H%M%S` shape that `delete_file` writes). -/
def exTs : String := "20200101_000000"

/-- A later timestamp of the same shape. -/
def exTs2 : String := "20200101_000001"

/-- A third timestamp of the same shape. -/
def exTs3 : String := "20200101_000002"

/-- State after one delete of file `p`: one operation, `can_undo = true`,
backup present. -/
def exS1 : FMState := run (initState ["p"]) [Ev.del exTs "p" ""]

/-- State after one delete of `p` with `q` still on disk: the log holds
one operation, so the next assigned id is 1. -/
def exS2 : FMState := run (initState ["p", "q"]) [Ev.del exTs "p" ""]

/-- State after deleting `p` and undoing that operation: the single
operation is finalized (`can_undo = false`) and its backup file is gone
(moved back to `p`). -/
def sC3 : FMState := run (initState ["p"]) [Ev.del exTs "p" "", Ev.undo "t" 0]

/-- The finalized operation record of `sC3`. -/
def opC3 : Operation :=
  { id := 0, timestamp := exTs, action := "delete", original_path := "p",
    backup_path := FPath.backup exTs "p", reason := "",
    can_undo := false, undone_at := some "t", permanently_deleted := false }

/-- The fresh operation record of `exS1`. -/
def opEx1 : Operation :=
  { id := 0, timestamp := exTs, action := "delete", original_path := "p",
    backup_path := FPath.backup exTs "p", reason := "",
    can_undo := true, undone_at := none, permanently_deleted := false }

/-- Two deletes: ids 0 and 1. -/
def sC5a : FMState :=
  run (initState ["p", "q", "r"]) [Ev.del exTs "p" "", Ev.del exTs2 "q" ""]

/-- External truncation of the log of `sC5a` to its first record, then a
third delete: the new operation receives id 1 again. -/
def sC5b : FMState := (delete_file (truncateLog sC5a 1) exTs3 "r" "").2

/-- State after one delete followed by a retention sweep with
`max_age_days = 0` at a strictly later clock reading: the log still holds
the operation with `can_undo = true` but its backup file was removed with
its namespace. -/
def exC1 : FMState :=
  run (initState ["p"]) [Ev.del exTs "p" "", Ev.sweep 1577836801 0]

/-- Backup-store state for the sweep witness: one parseable namespace (its
timestamp is 1577836800) holding one backup file. -/
def exSweepS : FMState :=
  { operations := [], files := [FPath.backup exTs "p"], namespaces := [exTs] }

/-- Backup-store state with one old parseable namespace and one directory
whose name does not parse as a timestamp. -/
def exSweepJ : FMState :=
  { operations := [], files := [], namespaces := [exTs, "junk"] }

/-- Backup destination key of an Operation: its timestamp namespace and the
leaf filename it relocated — these two values determine its backup path. -/
def opKey (o : Operation) : String × String :=
  (o.timestamp, leafName o.original_path)

/-- Inductive invariant tying the log to the disk, relative to the set `uk`
of backup-destination keys used by the delete calls performed so far:
every operation's backup file exists exactly while `can_undo` holds, backup
paths have the namespace/leaf shape that `delete_file` writes, all
operation keys were used, distinct operations have distinct keys, the disk
set is duplicate-free, and every backup file on disk has a used key. -/
structure GoodState (s : FMState) (uk : List (String × String)) : Prop where
  undoIff : ∀ (i : Nat) (op : Operation), s.operations[i]? = some op →
    (op.can_undo = true ↔ op.backup_path ∈ s.files)
  bpShape : ∀ (i : Nat) (op : Operation), s.operations[i]? = some op →
    op.backup_path = FPath.backup op.timestamp (leafName op.original_path)
  opKeys : ∀ (i : Nat) (op : Operation), s.operations[i]? = some op →
    opKey op ∈ uk
  keyInj : ∀ (i j : Nat) (op1 op2 : Operation), s.operations[i]? = some op1 →
    s.operations[j]? = some op2 → i ≠ j → opKey op1 ≠ opKey op2
  filesND : s.files.Nodup
  bpKeys : ∀ ns nm : String, FPath.backup ns nm ∈ s.files → (ns, nm) ∈ uk

end PlexFM

namespace PlexFM

lemma delete_file_of_mem (s : FMState) (ts p r : String)
    (h : FPath.orig p ∈ s.files) :
    delete_file s ts p r =
      (DelOutcome.deleted s.operations.length (FPath.backup ts (leafName p)),
       { operations := s.operations ++
           [{ id := s.operations.length, timestamp := ts, action := "delete",
              original_path := p, backup_path := FPath.backup ts (leafName p),
              reason := r, can_undo := true, undone_at := none,
              permanently_deleted := false }],
         files := insertUnique (FPath.backup ts (leafName p))
                    (s.files.erase (FPath.orig p)),
         namespaces := insertUnique ts s.namespaces }) := by
  simp [delete_file, h]

lemma delete_file_of_not_mem (s : FMState) (ts p r : String)
    (h : FPath.orig p ∉ s.files) :
    delete_file s ts p r = (DelOutcome.sourceMissing, s) := by
  simp [delete_file, h]

lemma delete_file_fail_eq (s : FMState) (ts p r : String)
    (h : (delete_file s ts p r).1 = DelOutcome.sourceMissing) :
    (delete_file s ts p r).2 = s := by
  by_cases hm : FPath.orig p ∈ s.files
  · rw [delete_file_of_mem s ts p r hm] at h; cases h
  · rw [delete_file_of_not_mem s ts p r hm]

lemma runDeletes_shape : ∀ (paths : List String) (s : FMState) (ts reason : String),
    (runDeletes s ts paths reason).1.map FileResult.file = paths := by
  intro paths
  induction paths with
  | nil => intro s ts reason; rfl
  | cons p ps ih =>
    intro s ts reason
    simp [runDeletes, ih]

/-- C10: `get_recent_operations` returns the last `min(limit, length)`
operations most-recent-first for `limit ≥ 1`, but returns the **entire**
log most-recent-first for `limit = 0` (Python's `[-0:]` is the whole
list), not an empty list. -/
theorem C10_get_recent_operations (s : FMState) (limit : Nat) :
    (1 ≤ limit →
       get_recent_operations s limit = s.operations.reverse.take limit
       ∧ (get_recent_operations s limit).length = min limit s.operations.length)
    ∧ get_recent_operations s 0 = s.operations.reverse := by
  constructor
  · intro hl
    have hne : limit ≠ 0 := Nat.one_le_iff_ne_zero.mp hl
    have hmain : get_recent_operations s limit = s.operations.reverse.take limit := by
      unfold get_recent_operations
      rw [if_neg hne, List.reverse_drop]
      by_cases hle : limit ≤ s.operations.length
      · have : s.operations.length - (s.operations.length - limit) = limit := by omega
        rw [this]
      · have h1 : s.operations.length - limit = 0 := by omega
        rw [h1, Nat.sub_zero, List.take_of_length_le (by simp),
            List.take_of_length_le (by simp; omega)]
    refine ⟨hmain, ?_⟩
    rw [hmain, List.length_take, List.length_reverse]
  · unfold get_recent_operations
    simp

/-- Witness for C10 at the one-operation state `exS1`. -/
theorem C10_witness :
    get_recent_operations exS1 1 = exS1.operations.reverse.take 1
    ∧ get_recent_operations exS1 0 = exS1.operations.reverse :=
  ⟨((C10_get_recent_operations exS1 1).1 (by decide)).1,
   (C10_get_recent_operations exS1 0).2⟩

/-- C6: `delete_multiple` reports `total = number of input paths` and one
per-file result per path in input order; a failed per-file delete mutates
nothing (so it neither blocks nor rolls back the others); concretely,
batch-deleting `[valid, missing]` yields results
`[success, SourceMissing]` with `total = 2` and the valid file actually
relocated into the backup namespace. -/
theorem C6_delete_multiple_batch :
    (∀ (s : FMState) (ts : String) (paths : List String) (reason : String),
       (delete_multiple s ts paths reason).1.total = paths.length
       ∧ (delete_multiple s ts paths reason).1.results.map FileResult.file = paths)
    ∧ (∀ (s : FMState) (ts p reason : String),
        (delete_file s ts p reason).1 = DelOutcome.sourceMissing →
        (delete_file s ts p reason).2 = s)
    ∧ ((delete_multiple (initState ["v"]) exTs ["v", "m"] "").1.results.map
         FileResult.success = [true, false]
       ∧ (delete_multiple (initState ["v"]) exTs ["v", "m"] "").1.results.map
           FileResult.res
         = [DelOutcome.deleted 0 (FPath.backup exTs "v"), DelOutcome.sourceMissing]
       ∧ (delete_multiple (initState ["v"]) exTs ["v", "m"] "").1.total = 2
       ∧ FPath.backup exTs "v" ∈ (delete_multiple (initState ["v"]) exTs ["v", "m"] "").2.files
       ∧ FPath.orig "v" ∉ (delete_multiple (initState ["v"]) exTs ["v", "m"] "").2.files) := by
  refine ⟨?_, ?_, ?_⟩
  · intro s ts paths reason
    exact ⟨rfl, runDeletes_shape paths s ts reason⟩
  · intro s ts p reason h
    exact delete_file_fail_eq s ts p reason h
  · refine ⟨by decide, by decide, by decide, by decide, by decide⟩

/-- Witness for C6: the failing delete of a missing path leaves the state
untouched. -/
theorem C6_witness :
    (delete_file (initState []) exTs "m" "").2 = initState [] :=
  C6_delete_multiple_batch.2.1 (initState []) exTs "m" "" (by decide)

lemma runDeletes_first_success :
    ∀ (paths : List String) (s : FMState) (ts reason : String) (fr : FileResult),
    (runDeletes s ts paths reason).1.find? FileResult.success = some fr →
    fr.operationId = some s.operations.length := by
  intro paths
  induction paths with
  | nil => intro s ts reason fr h; cases h
  | cons p ps ih =>
    intro s ts reason fr h
    have hun : (runDeletes s ts (p :: ps) reason).1
        = ⟨p, (delete_file s ts p reason).1⟩ ::
            (runDeletes (delete_file s ts p reason).2 ts ps reason).1 := rfl
    rw [hun] at h
    by_cases hm : FPath.orig p ∈ s.files
    · rw [delete_file_of_mem s ts p reason hm] at h
      rw [List.find?_cons_of_pos _ (by rfl)] at h
      cases h
      rfl
    · rw [delete_file_of_not_mem s ts p reason hm] at h
      rw [List.find?_cons_of_neg _ (by simp [FileResult.success])] at h
      have := ih (delete_file s ts p reason).2 ts reason fr (by
        rw [delete_file_of_not_mem s ts p reason hm]; exact h)
      rwa [delete_file_of_not_mem s ts p reason hm] at this

/-- C7: when at least one per-file delete of a batch succeeds, the batch's
`batch_id` equals the operation id assigned to the first successful
delete of that batch (both are the length of the log when the batch
started). -/
theorem C7_batch_id (s : FMState) (ts : String) (paths : List String)
    (reason : String) (fr : FileResult)
    (h : (delete_multiple s ts paths reason).1.results.find? FileResult.success
          = some fr) :
    fr.operationId = some (delete_multiple s ts paths reason).1.batch_id :=
  runDeletes_first_success paths s ts reason fr h

/-- Witness for C7 on the concrete batch `[missing, valid]` started after
one earlier delete: the first successful result is the second entry and
it carries operation id 1 = the batch id. -/
theorem C7_witness :
    (delete_multiple exS2 exTs2 ["m", "q"] "").1.results.find? FileResult.success
      = some ⟨"q", DelOutcome.deleted 1 (FPath.backup exTs2 "q")⟩
    ∧ FileResult.operationId ⟨"q", DelOutcome.deleted 1 (FPath.backup exTs2 "q")⟩
      = some (delete_multiple exS2 exTs2 ["m", "q"] "").1.batch_id :=
  ⟨by decide, C7_batch_id exS2 exTs2 ["m", "q"] "" _ (by decide)⟩

end PlexFM

namespace PlexFM

/-- C4 (amended): ids at or above the log length get NotFound with no
mutation from both `undo_operation` and `permanently_delete_backup`; ids
below `-length` escape as an uncaught IndexError (Python negative
indexing), also with no mutation.  (Negative ids in `[-length, -1]` are
*not* rejected — see the counterexample.) -/
theorem C4_amended_id_range (s : FMState) (now : String) (oid : Int) :
    ((s.operations.length : Int) ≤ oid →
       undo_operation s now oid = (OpOutcome.notFound, s)
       ∧ permanently_delete_backup s oid = (OpOutcome.notFound, s))
    ∧ (oid < -(s.operations.length : Int) →
       undo_operation s now oid = (OpOutcome.indexError, s)
       ∧ permanently_delete_backup s oid = (OpOutcome.indexError, s)) := by
  constructor
  · intro h
    constructor
    · unfold undo_operation; rw [if_pos h]
    · unfold permanently_delete_backup; rw [if_pos h]
  · intro h
    have hlen : (0 : Int) ≤ (s.operations.length : Int) := Int.natCast_nonneg _
    have h1 : ¬ ((s.operations.length : Int) ≤ oid) := by omega
    have h2 : pyIndex s.operations.length oid = none := by
      unfold pyIndex
      rw [if_neg (by omega), if_neg (by omega)]
    constructor
    · unfold undo_operation; rw [if_neg h1, h2]
    · unfold permanently_delete_backup; rw [if_neg h1, h2]

/-- C4 counterexample: on the one-operation state `exS1`, the negative id
`-1` is not rejected as NotFound — Python indexing resolves it to
operation 0, the undo succeeds and the log is mutated. -/
theorem C4_counterexample :
    (undo_operation exS1 "t" (-1)).1 = OpOutcome.restored "p"
    ∧ (undo_operation exS1 "t" (-1)).2.operations.map Operation.can_undo = [false]
    ∧ (-1 : Int) < 0 := by decide

/-- Witness for C4 at `exS1` (log length 1): id 5 gets NotFound, id -2
raises IndexError, with no mutation either way. -/
theorem C4_witness :
    (undo_operation exS1 "t" 5 = (OpOutcome.notFound, exS1)
      ∧ permanently_delete_backup exS1 5 = (OpOutcome.notFound, exS1))
    ∧ (undo_operation exS1 "t" (-2) = (OpOutcome.indexError, exS1)
      ∧ permanently_delete_backup exS1 (-2) = (OpOutcome.indexError, exS1)) :=
  ⟨(C4_amended_id_range exS1 "t" 5).1 (by decide),
   (C4_amended_id_range exS1 "t" (-2)).2 (by decide)⟩

/-- C3 (amended): `undo_operation` on an operation with `can_undo = false`
returns AlreadyFinalized and mutates nothing.  `permanently_delete_backup`
never consults `can_undo`: with the backup file absent it returns
BackupMissing and mutates nothing, but with a file present at the recorded
backup path it deletes that file and re-finalizes the record even when
`can_undo` is already false. -/
theorem C3_amended_finalized (s : FMState) (now : String) (oid : Int)
    (idx : Nat) (op : Operation)
    (hidx : pyIndex s.operations.length oid = some idx)
    (hlt : oid < (s.operations.length : Int))
    (hop : s.operations[idx]? = some op) :
    (op.can_undo = false → undo_operation s now oid = (OpOutcome.cannotUndo, s))
    ∧ (op.backup_path ∉ s.files →
        permanently_delete_backup s oid = (OpOutcome.backupNotFound, s))
    ∧ (op.backup_path ∈ s.files →
        permanently_delete_backup s oid =
          (OpOutcome.purged,
           { s with
             files := s.files.erase op.backup_path,
             operations := s.operations.set idx
               { op with can_undo := false, permanently_deleted := true } })) := by
  have hng : ¬ ((s.operations.length : Int) ≤ oid) := not_le.mpr hlt
  refine ⟨?_, ?_, ?_⟩
  · intro hcu
    unfold undo_operation
    rw [if_neg hng, hidx]
    simp only [hop]
    rw [if_pos hcu]
  · intro hbp
    unfold permanently_delete_backup
    rw [if_neg hng, hidx]
    simp only [hop]
    rw [if_neg hbp]
  · intro hbp
    unfold permanently_delete_backup
    rw [if_neg hng, hidx]
    simp only [hop]
    rw [if_pos hbp]

/-- C3 counterexample: after delete-then-undo, the single operation has
`can_undo = false`, yet `permanently_delete_backup` on it returns
BackupMissing ("Backup file not found"), not the AlreadyFinalized the
claim requires. -/
theorem C3_counterexample :
    sC3.operations.map Operation.can_undo = [false]
    ∧ permanently_delete_backup sC3 0 = (OpOutcome.backupNotFound, sC3)
    ∧ OpOutcome.backupNotFound ≠ OpOutcome.cannotUndo := by decide

/-- Witness for C3 at the finalized state `sC3`: the undo branch signals
AlreadyFinalized and the purge branch signals BackupMissing, both without
mutation. -/
theorem C3_witness :
    undo_operation sC3 "t2" 0 = (OpOutcome.cannotUndo, sC3)
    ∧ permanently_delete_backup sC3 0 = (OpOutcome.backupNotFound, sC3) :=
  ⟨(C3_amended_finalized sC3 "t2" 0 0 opC3 (by decide) (by decide) (by decide)).1
     (by decide),
   (C3_amended_finalized sC3 "t2" 0 0 opC3 (by decide) (by decide) (by decide)).2.1
     (by decide)⟩

lemma clean_old_backups_ops (s : FMState) (now : Int) (days : Nat) :
    (clean_old_backups s now days).2.operations = s.operations := rfl

lemma pyIndex_lt (len : Nat) (oid : Int) (idx : Nat)
    (hng : ¬ (len : Int) ≤ oid) (hidx : pyIndex len oid = some idx) :
    idx < len := by
  unfold pyIndex at hidx
  split at hidx
  · next h0 =>
    cases hidx
    omega
  · split at hidx
    · next h0 h1 =>
      cases hidx
      omega
    · cases hidx

lemma undo_operation_pyNone (s : FMState) (now : String) (oid : Int)
    (hng : ¬ (s.operations.length : Int) ≤ oid)
    (hidx : pyIndex s.operations.length oid = none) :
    undo_operation s now oid = (OpOutcome.indexError, s) := by
  unfold undo_operation
  rw [if_neg hng, hidx]

lemma undo_operation_some (s : FMState) (now : String) (oid : Int)
    (idx : Nat) (op : Operation)
    (hng : ¬ (s.operations.length : Int) ≤ oid)
    (hidx : pyIndex s.operations.length oid = some idx)
    (hop : s.operations[idx]? = some op) :
    undo_operation s now oid =
      (if op.can_undo = false then (OpOutcome.cannotUndo, s)
       else if op.backup_path ∈ s.files then
         (OpOutcome.restored op.original_path,
          { s with
            files := insertUnique (FPath.orig op.original_path)
                       (s.files.erase op.backup_path),
            operations := s.operations.set idx
              { op with can_undo := false, undone_at := some now } })
       else (OpOutcome.backupNotFound, s)) := by
  unfold undo_operation
  rw [if_neg hng, hidx]
  simp only [hop]

lemma purge_pyNone (s : FMState) (oid : Int)
    (hng : ¬ (s.operations.length : Int) ≤ oid)
    (hidx : pyIndex s.operations.length oid = none) :
    permanently_delete_backup s oid = (OpOutcome.indexError, s) := by
  unfold permanently_delete_backup
  rw [if_neg hng, hidx]

lemma purge_some (s : FMState) (oid : Int) (idx : Nat) (op : Operation)
    (hng : ¬ (s.operations.length : Int) ≤ oid)
    (hidx : pyIndex s.operations.length oid = some idx)
    (hop : s.operations[idx]? = some op) :
    permanently_delete_backup s oid =
      (if op.backup_path ∈ s.files then
         (OpOutcome.purged,
          { s with
            files := s.files.erase op.backup_path,
            operations := s.operations.set idx
              { op with can_undo := false, permanently_deleted := true } })
       else (OpOutcome.backupNotFound, s)) := by
  unfold permanently_delete_backup
  rw [if_neg hng, hidx]
  simp only [hop]

/-- Shape of one engine call on the operations list: unchanged, append of
a fresh record with id = length and fresh flags, or a single finalizing
in-place update at a valid index. -/
lemma applyEv_ops_cases (s : FMState) (e : Ev) :
    (applyEv s e).operations = s.operations
    ∨ (∃ op : Operation, (applyEv s e).operations = s.operations ++ [op]
        ∧ op.id = s.operations.length ∧ op.can_undo = true
        ∧ op.undone_at = none ∧ op.permanently_deleted = false)
    ∨ (∃ (idx : Nat) (op : Operation) (now : String),
        s.operations[idx]? = some op
        ∧ (applyEv s e).operations
            = s.operations.set idx
                { op with can_undo := false, undone_at := some now })
    ∨ (∃ (idx : Nat) (op : Operation),
        s.operations[idx]? = some op
        ∧ (applyEv s e).operations
            = s.operations.set idx
                { op with can_undo := false, permanently_deleted := true }) := by
  cases e with
  | del ts p r =>
    by_cases hm : FPath.orig p ∈ s.files
    · refine Or.inr (Or.inl
        ⟨{ id := s.operations.length, timestamp := ts, action := "delete",
           original_path := p, backup_path := FPath.backup ts (leafName p),
           reason := r, can_undo := true, undone_at := none,
           permanently_deleted := false }, ?_, rfl, rfl, rfl, rfl⟩)
      show (delete_file s ts p r).2.operations = _
      rw [delete_file_of_mem s ts p r hm]
    · refine Or.inl ?_
      show (delete_file s ts p r).2.operations = _
      rw [delete_file_of_not_mem s ts p r hm]
  | undo now oid =>
    by_cases hg : (s.operations.length : Int) ≤ oid
    · refine Or.inl ?_
      show (undo_operation s now oid).2.operations = _
      unfold undo_operation
      rw [if_pos hg]
    · cases hpy : pyIndex s.operations.length oid with
      | none =>
        refine Or.inl ?_
        show (undo_operation s now oid).2.operations = _
        rw [undo_operation_pyNone s now oid hg hpy]
      | some idx =>
        have hlt := pyIndex_lt _ _ _ hg hpy
        have hop : s.operations[idx]? = some s.operations[idx] :=
          List.getElem?_eq_getElem hlt
        have heq := undo_operation_some s now oid idx _ hg hpy hop
        by_cases hcu : s.operations[idx].can_undo = false
        · refine Or.inl ?_
          show (undo_operation s now oid).2.operations = _
          rw [heq, if_pos hcu]
        · by_cases hbp : s.operations[idx].backup_path ∈ s.files
          · refine Or.inr (Or.inr (Or.inl ⟨idx, s.operations[idx], now, hop, ?_⟩))
            show (undo_operation s now oid).2.operations = _
            rw [heq, if_neg hcu, if_pos hbp]
          · refine Or.inl ?_
            show (undo_operation s now oid).2.operations = _
            rw [heq, if_neg hcu, if_neg hbp]
  | purge oid =>
    by_cases hg : (s.operations.length : Int) ≤ oid
    · refine Or.inl ?_
      show (permanently_delete_backup s oid).2.operations = _
      unfold permanently_delete_backup
      rw [if_pos hg]
    · cases hpy : pyIndex s.operations.length oid with
      | none =>
        refine Or.inl ?_
        show (permanently_delete_backup s oid).2.operations = _
        rw [purge_pyNone s oid hg hpy]
      | some idx =>
        have hlt := pyIndex_lt _ _ _ hg hpy
        have hop : s.operations[idx]? = some s.operations[idx] :=
          List.getElem?_eq_getElem hlt
        have heq := purge_some s oid idx _ hg hpy hop
        by_cases hbp : s.operations[idx].backup_path ∈ s.files
        · refine Or.inr (Or.inr (Or.inr ⟨idx, s.operations[idx], hop, ?_⟩))
          show (permanently_delete_backup s oid).2.operations = _
          rw [heq, if_pos hbp]
        · refine Or.inl ?_
          show (permanently_delete_backup s oid).2.operations = _
          rw [heq, if_neg hbp]
  | sweep now days =>
    exact Or.inl (clean_old_backups_ops s now days)

end PlexFM

namespace PlexFM

lemma ids_applyEv (s : FMState) (e : Ev)
    (h : ∀ (i : Nat) (op : Operation), s.operations[i]? = some op → op.id = i) :
    ∀ (i : Nat) (op : Operation),
      (applyEv s e).operations[i]? = some op → op.id = i := by
  rcases applyEv_ops_cases s e with heq | ⟨op0, heq, hid, _⟩ |
    ⟨idx, op0, now, hop0, heq⟩ | ⟨idx, op0, hop0, heq⟩
  · rw [heq]; exact h
  · intro i op hop
    rw [heq, List.getElem?_append] at hop
    split at hop
    · exact h i op hop
    · next hge =>
      by_cases hi : i = s.operations.length
      · rw [hi, Nat.sub_self] at hop
        simp only [List.getElem?_cons_zero] at hop
        cases hop
        rw [hid, hi]
      · rw [List.getElem?_eq_none (by simp; omega)] at hop
        cases hop
  · intro i op hop
    rw [heq] at hop
    by_cases hi : i = idx
    · subst hi
      have hlt : i < s.operations.length :=
        List.getElem?_eq_some_iff.mp hop0 |>.choose
      rw [List.getElem?_set_self hlt] at hop
      cases hop
      exact h i op0 hop0
    · rw [List.getElem?_set_ne (fun hh => hi hh.symm)] at hop
      exact h i op hop
  · intro i op hop
    rw [heq] at hop
    by_cases hi : i = idx
    · subst hi
      have hlt : i < s.operations.length :=
        List.getElem?_eq_some_iff.mp hop0 |>.choose
      rw [List.getElem?_set_self hlt] at hop
      cases hop
      exact h i op0 hop0
    · rw [List.getElem?_set_ne (fun hh => hi hh.symm)] at hop
      exact h i op hop

lemma ids_run : ∀ (evs : List Ev) (s : FMState),
    (∀ (i : Nat) (op : Operation), s.operations[i]? = some op → op.id = i) →
    ∀ (i : Nat) (op : Operation),
      (run s evs).operations[i]? = some op → op.id = i := by
  intro evs
  induction evs with
  | nil => intro s h; exact h
  | cons e es ih =>
    intro s h
    exact ih (applyEv s e) (ids_applyEv s e h)

lemma map_id_eq_range (ops : List Operation)
    (h : ∀ (i : Nat) (op : Operation), ops[i]? = some op → op.id = i) :
    ops.map Operation.id = List.range ops.length := by
  apply List.ext_getElem?
  intro i
  rw [List.getElem?_map]
  by_cases hi : i < ops.length
  · have hop : ops[i]? = some ops[i] := List.getElem?_eq_getElem hi
    rw [hop, List.getElem?_range hi]
    simp [h i ops[i] hop]
  · rw [List.getElem?_eq_none (by omega),
        List.getElem?_eq_none (by rw [List.length_range]; omega)]
    rfl

/-- C5 (amended): every successful `delete_file` appends an Operation whose
id is the length of the log at append time, so within one uninterrupted
log lifetime the ids of the log are exactly `0, 1, …, n-1` — monotonically
increasing and pairwise distinct.  After *external truncation* of the
persisted log and a reload, ids are reused (see the counterexample). -/
theorem C5_amended_ids :
    (∀ (s : FMState) (ts p r : String) (oid : Nat) (bp : FPath),
       (delete_file s ts p r).1 = DelOutcome.deleted oid bp →
       oid = s.operations.length
       ∧ (delete_file s ts p r).2.operations.map Operation.id
           = s.operations.map Operation.id ++ [s.operations.length])
    ∧ (∀ (origs : List String) (evs : List Ev) (i : Nat) (op : Operation),
       (run (initState origs) evs).operations[i]? = some op → op.id = i)
    ∧ (∀ (origs : List String) (evs : List Ev),
       ((run (initState origs) evs).operations.map Operation.id).Nodup) := by
  have hrun : ∀ (origs : List String) (evs : List Ev) (i : Nat) (op : Operation),
      (run (initState origs) evs).operations[i]? = some op → op.id = i := by
    intro origs evs
    exact ids_run evs (initState origs) (by intro i op hop; cases hop)
  refine ⟨?_, hrun, ?_⟩
  · intro s ts p r oid bp h
    by_cases hm : FPath.orig p ∈ s.files
    · rw [delete_file_of_mem s ts p r hm] at h ⊢
      cases h
      simp
    · rw [delete_file_of_not_mem s ts p r hm] at h
      cases h
  · intro origs evs
    rw [map_id_eq_range _ (hrun origs evs)]
    exact List.nodup_range _

/-- C5 counterexample: after two deletes the log assigns ids 0 and 1;
externally truncating the persisted log to its first record and reloading,
the next delete assigns id 1 *again*, to a different file — ids are reused
after external truncation. -/
theorem C5_counterexample :
    sC5a.operations.map (fun o => (o.id, o.original_path))
      = [(0, "p"), (1, "q")]
    ∧ sC5b.operations.map (fun o => (o.id, o.original_path))
      = [(0, "p"), (1, "r")] := by decide

/-- Witness for C5: a successful concrete delete is assigned id 0 = the
empty log's length, and a concrete reachable state's operation has id =
its position. -/
theorem C5_witness :
    (0 = (initState ["p"]).operations.length
      ∧ (delete_file (initState ["p"]) exTs "p" "").2.operations.map Operation.id
          = (initState ["p"]).operations.map Operation.id
            ++ [(initState ["p"]).operations.length])
    ∧ opEx1.id = 0 :=
  ⟨C5_amended_ids.1 (initState ["p"]) exTs "p" "" 0 (FPath.backup exTs "p")
     (by decide),
   C5_amended_ids.2.1 ["p"] [Ev.del exTs "p" ""] 0 opEx1 (by decide)⟩

end PlexFM

namespace PlexFM

lemma flags_applyEv (s : FMState) (e : Ev)
    (h : ∀ op ∈ s.operations,
      op.can_undo = true ↔ (op.undone_at = none ∧ op.permanently_deleted = false)) :
    ∀ op ∈ (applyEv s e).operations,
      op.can_undo = true ↔ (op.undone_at = none ∧ op.permanently_deleted = false) := by
  rcases applyEv_ops_cases s e with heq | ⟨op0, heq, _, hcu, hua, hpd⟩ |
    ⟨idx, op0, now, hop0, heq⟩ | ⟨idx, op0, hop0, heq⟩
  · rw [heq]; exact h
  · intro op hop
    rw [heq, List.mem_append] at hop
    rcases hop with hop | hop
    · exact h op hop
    · rcases List.mem_singleton.mp hop with rfl
      rw [hcu, hua, hpd]
      simp
  · intro op hop
    rw [heq] at hop
    rcases List.mem_or_eq_of_mem_set hop with hop | rfl
    · exact h op hop
    · simp
  · intro op hop
    rw [heq] at hop
    rcases List.mem_or_eq_of_mem_set hop with hop | rfl
    · exact h op hop
    · simp

lemma flags_run : ∀ (evs : List Ev) (s : FMState),
    (∀ op ∈ s.operations,
      op.can_undo = true ↔ (op.undone_at = none ∧ op.permanently_deleted = false)) →
    ∀ op ∈ (run s evs).operations,
      op.can_undo = true ↔ (op.undone_at = none ∧ op.permanently_deleted = false) := by
  intro evs
  induction evs with
  | nil => intro s h; exact h
  | cons e es ih =>
    intro s h
    exact ih (applyEv s e) (flags_applyEv s e h)

/-- C2: in every reachable state, an Operation has `can_undo = true` iff
neither `undone_at` nor `permanently_deleted` is set; every Operation is
created by a successful delete with `can_undo = true` and both markers
unset; and once `can_undo` is false for the record at a position, it stays
false under every further engine call. -/
theorem C2_can_undo_flags :
    (∀ (origs : List String) (evs : List Ev) (op : Operation),
       op ∈ (run (initState origs) evs).operations →
       (op.can_undo = true ↔ (op.undone_at = none ∧ op.permanently_deleted = false)))
    ∧ (∀ (s : FMState) (ts p r : String) (oid : Nat) (bp : FPath),
       (delete_file s ts p r).1 = DelOutcome.deleted oid bp →
       ∃ op : Operation, (delete_file s ts p r).2.operations = s.operations ++ [op]
         ∧ op.can_undo = true ∧ op.undone_at = none ∧ op.permanently_deleted = false)
    ∧ (∀ (s : FMState) (e : Ev) (i : Nat) (op op2 : Operation),
       s.operations[i]? = some op → (applyEv s e).operations[i]? = some op2 →
       op.can_undo = false → op2.can_undo = false) := by
  refine ⟨?_, ?_, ?_⟩
  · intro origs evs
    exact flags_run evs (initState origs) (by intro op hop; cases hop)
  · intro s ts p r oid bp h
    by_cases hm : FPath.orig p ∈ s.files
    · rw [delete_file_of_mem s ts p r hm] at h ⊢
      exact ⟨_, rfl, rfl, rfl, rfl⟩
    · rw [delete_file_of_not_mem s ts p r hm] at h
      cases h
  · intro s e i op op2 hop hop2 hfalse
    rcases applyEv_ops_cases s e with heq | ⟨op0, heq, _, _, _, _⟩ |
      ⟨idx, op0, now, hop0, heq⟩ | ⟨idx, op0, hop0, heq⟩
    · rw [heq, hop] at hop2
      cases hop2
      exact hfalse
    · rw [heq, List.getElem?_append] at hop2
      split at hop2
      · rw [hop] at hop2
        cases hop2
        exact hfalse
      · next hge =>
        have : i < s.operations.length := List.getElem?_eq_some_iff.mp hop |>.choose
        omega
    · rw [heq] at hop2
      by_cases hi : i = idx
      · subst hi
        have hlt : i < s.operations.length :=
          List.getElem?_eq_some_iff.mp hop0 |>.choose
        rw [List.getElem?_set_self hlt] at hop2
        cases hop2
        rfl
      · rw [List.getElem?_set_ne (fun hh => hi hh.symm), hop] at hop2
        cases hop2
        exact hfalse
    · rw [heq] at hop2
      by_cases hi : i = idx
      · subst hi
        have hlt : i < s.operations.length :=
          List.getElem?_eq_some_iff.mp hop0 |>.choose
        rw [List.getElem?_set_self hlt] at hop2
        cases hop2
        rfl
      · rw [List.getElem?_set_ne (fun hh => hi hh.symm), hop] at hop2
        cases hop2
        exact hfalse

/-- Witness for C2 at the concrete reachable state `exS1` and its fresh
operation record. -/
theorem C2_witness :
    opEx1.can_undo = true ↔ (opEx1.undone_at = none ∧ opEx1.permanently_deleted = false) :=
  C2_can_undo_flags.1 ["p"] [Ev.del exTs "p" ""] opEx1 (by decide)

end PlexFM

namespace PlexScan

lemma lookupHash_nil (h : String) : lookupHash [] h = none := rfl

lemma lookupHash_map_ne (h0 h : String) (fi : FileInfo) (hne : h ≠ h0) :
    ∀ m : List (String × FileInfo),
    lookupHash (m.map (fun kv => if kv.1 == h0 then (kv.1, fi) else kv)) h
      = lookupHash m h := by
  intro m
  induction m with
  | nil => rfl
  | cons kv tl ih =>
    unfold lookupHash at ih ⊢
    by_cases hk : kv.1 = h0
    · have h2 : (kv.1 == h) = false := by
        rw [hk]; exact beq_eq_false_iff_ne.mpr (Ne.symm hne)
      have hrepl : (if kv.1 == h0 then (kv.1, fi) else kv) = (kv.1, fi) := by
        simp [hk]
      rw [List.map_cons, hrepl, List.find?_cons, List.find?_cons]
      simp only [h2]
      exact ih
    · have hrepl : (if kv.1 == h0 then (kv.1, fi) else kv) = kv := by
        simp [hk]
      rw [List.map_cons, hrepl, List.find?_cons, List.find?_cons]
      cases hkv : (kv.1 == h) with
      | true => simp only [hkv]
      | false =>
        simp only [hkv]
        exact ih

lemma lookupHash_append_one (m : List (String × FileInfo)) (h0 h : String)
    (fi : FileInfo) :
    lookupHash (m ++ [(h0, fi)]) h
      = (lookupHash m h).or (if h0 == h then some fi else none) := by
  unfold lookupHash
  rw [List.find?_append]
  cases hm : m.find? (fun kv => kv.1 == h) with
  | some x => simp [Option.or]
  | none =>
    cases hh : (h0 == h) with
    | true => simp [List.find?_cons, hh, Option.or]
    | false => simp [List.find?_cons, hh, Option.or]

lemma lookupHash_setHash_ne (m : List (String × FileInfo)) (h0 h : String)
    (fi : FileInfo) (hne : h ≠ h0) :
    lookupHash (setHash m h0 fi) h = lookupHash m h := by
  unfold setHash
  split
  · exact lookupHash_map_ne h0 h fi hne m
  · rw [lookupHash_append_one]
    have h3 : (h0 == h) = false := beq_eq_false_iff_ne.mpr (Ne.symm hne)
    rw [h3]
    cases hm : lookupHash m h <;> simp [Option.or]

lemma lookupHash_setHash_self (m : List (String × FileInfo)) (h0 : String)
    (fi : FileInfo) (hnone : lookupHash m h0 = none) :
    lookupHash (setHash m h0 fi) h0 = some fi := by
  have hfind : m.find? (fun kv => kv.1 == h0) = none := by
    unfold lookupHash at hnone
    exact Option.map_eq_none.mp hnone
  unfold setHash
  rw [if_neg (by rw [hfind]; simp)]
  rw [lookupHash_append_one, hnone]
  simp [Option.or]

lemma dupPairs_cons (pre : List FileInfo) (fi : FileInfo) (rest : List FileInfo) :
    dupPairs pre (fi :: rest)
      = if fi.hash = "" then dupPairs (pre ++ [fi]) rest
        else
          match pre.find? (fun e => e.hash == fi.hash) with
          | some first => (first, fi) :: dupPairs pre rest
          | none => dupPairs (pre ++ [fi]) rest := rfl

lemma dupPairs_cons_empty (pre : List FileInfo) (fi : FileInfo)
    (rest : List FileInfo) (hh : fi.hash = "") :
    dupPairs pre (fi :: rest) = dupPairs (pre ++ [fi]) rest := by
  rw [dupPairs_cons, if_pos hh]

lemma dupPairs_cons_found (pre : List FileInfo) (fi first : FileInfo)
    (rest : List FileInfo) (hh : ¬ fi.hash = "")
    (hfind : pre.find? (fun e => e.hash == fi.hash) = some first) :
    dupPairs pre (fi :: rest) = (first, fi) :: dupPairs pre rest := by
  rw [dupPairs_cons, if_neg hh, hfind]

lemma dupPairs_cons_fresh (pre : List FileInfo) (fi : FileInfo)
    (rest : List FileInfo) (hh : ¬ fi.hash = "")
    (hfind : pre.find? (fun e => e.hash == fi.hash) = none) :
    dupPairs pre (fi :: rest) = dupPairs (pre ++ [fi]) rest := by
  rw [dupPairs_cons, if_neg hh, hfind]

lemma foldl_dupStep_eq : ∀ (l : List FileInfo)
    (m : List (String × FileInfo)) (pre : List FileInfo)
    (acc : List (FileInfo × FileInfo)), HashMapRel m pre →
    (l.foldl dupStep (m, acc)).2 = acc ++ dupPairs pre l := by
  intro l
  induction l with
  | nil => intro m pre acc hR; simp [dupPairs]
  | cons fi rest ih =>
    intro m pre acc hR
    rw [List.foldl_cons]
    by_cases hh : fi.hash = ""
    · have hstep : dupStep (m, acc) fi = (setHash m fi.hash fi, acc) := by
        unfold dupStep
        rw [if_pos hh]
      have hR2 : HashMapRel (setHash m fi.hash fi) (pre ++ [fi]) := by
        intro h hne
        rw [lookupHash_setHash_ne m fi.hash h fi (by rw [hh]; exact hne),
            hR h hne, List.find?_append]
        have h1 : (fun e => e.hash == h) fi = false := by
          show (fi.hash == h) = false
          rw [hh]
          exact beq_eq_false_iff_ne.mpr (Ne.symm hne)
        cases hp : pre.find? (fun e => e.hash == h) <;>
          simp [Option.or, List.find?_cons, h1]
      rw [hstep, ih _ _ _ hR2, dupPairs_cons_empty pre fi rest hh]
    · cases hl : lookupHash m fi.hash with
      | some first =>
        have hstep : dupStep (m, acc) fi = (m, acc ++ [(first, fi)]) := by
          unfold dupStep
          rw [if_neg hh, hl]
        have hfind : pre.find? (fun e => e.hash == fi.hash) = some first := by
          rw [← hR fi.hash hh]; exact hl
        rw [hstep, ih _ _ _ hR, dupPairs_cons_found pre fi first rest hh hfind,
            List.append_assoc]
        rfl
      | none =>
        have hstep : dupStep (m, acc) fi = (setHash m fi.hash fi, acc) := by
          unfold dupStep
          rw [if_neg hh, hl]
        have hfind : pre.find? (fun e => e.hash == fi.hash) = none := by
          rw [← hR fi.hash hh]; exact hl
        have hR2 : HashMapRel (setHash m fi.hash fi) (pre ++ [fi]) := by
          intro h hne
          by_cases hhh : h = fi.hash
          · subst hhh
            rw [lookupHash_setHash_self m fi.hash fi hl, List.find?_append, hfind]
            simp [Option.or, List.find?_cons]
          · rw [lookupHash_setHash_ne m fi.hash h fi hhh, hR h hne,
                List.find?_append]
            have h1 : (fun e => e.hash == h) fi = false := by
              show (fi.hash == h) = false
              exact beq_eq_false_iff_ne.mpr (fun he => hhh he.symm)
            cases hp : pre.find? (fun e => e.hash == h) <;>
              simp [Option.or, List.find?_cons, h1]
        rw [hstep, ih _ _ _ hR2, dupPairs_cons_fresh pre fi rest hh hfind]

lemma find_duplicates_eq_dupPairs (items : List ScanItem) :
    find_duplicates items = dupPairs [] (allFiles items) := by
  unfold find_duplicates
  rw [foldl_dupStep_eq (allFiles items) [] [] [] (by intro h hne; rfl)]
  rfl

end PlexScan

namespace PlexScan

lemma dupPairs_mem : ∀ (l pre : List FileInfo) (pr : FileInfo × FileInfo),
    pr ∈ dupPairs pre l →
    pr.1.hash = pr.2.hash ∧ pr.2.hash ≠ ""
    ∧ (pre ++ l).find? (fun e => e.hash == pr.1.hash) = some pr.1 := by
  intro l
  induction l with
  | nil => intro pre pr h; cases h
  | cons fi rest ih =>
    intro pre pr h
    by_cases hh : fi.hash = ""
    · rw [dupPairs_cons_empty pre fi rest hh] at h
      have := ih (pre ++ [fi]) pr h
      rwa [List.append_assoc, List.singleton_append] at this
    · cases hfind : pre.find? (fun e => e.hash == fi.hash) with
      | some first =>
        rw [dupPairs_cons_found pre fi first rest hh hfind] at h
        rcases List.mem_cons.mp h with heq | hmem
        · subst heq
          have hfs := List.find?_some hfind
          have h1 : first.hash = fi.hash := by simpa using hfs
          refine ⟨h1, hh, ?_⟩
          show (pre ++ fi :: rest).find? (fun e => e.hash == first.hash) = some first
          rw [List.find?_append]
          rw [show (fun e : FileInfo => e.hash == first.hash)
              = (fun e : FileInfo => e.hash == fi.hash) from by
            funext e; rw [h1]]
          rw [hfind]
          rfl
        · obtain ⟨ha, hb, hc⟩ := ih pre pr hmem
          refine ⟨ha, hb, ?_⟩
          rw [List.find?_append] at hc ⊢
          cases hp : pre.find? (fun e => e.hash == pr.1.hash) with
          | some x =>
            rw [hp] at hc
            simpa using hc
          | none =>
            rw [hp] at hc
            simp only [Option.or] at hc ⊢
            have hqfi : (fi.hash == pr.1.hash) = false := by
              rcases eq_or_ne fi.hash pr.1.hash with he | he
              · exfalso
                rw [show (fun e : FileInfo => e.hash == pr.1.hash)
                    = (fun e : FileInfo => e.hash == fi.hash) from by
                  funext e; rw [he]] at hp
                rw [hp] at hfind
                cases hfind
              · exact beq_eq_false_iff_ne.mpr he
            rw [List.find?_cons_of_neg _ (by simp [hqfi])]
            exact hc
      | none =>
        rw [dupPairs_cons_fresh pre fi rest hh hfind] at h
        have := ih (pre ++ [fi]) pr h
        rwa [List.append_assoc, List.singleton_append] at this

lemma dupPairs_count (h : String) (hne : h ≠ "") :
    ∀ (l pre : List FileInfo),
    ((dupPairs pre l).filter (fun pr => pr.2.hash == h)).length
      = (if (pre.find? (fun e => e.hash == h)).isSome
         then (l.filter (fun e => e.hash == h)).length
         else (l.filter (fun e => e.hash == h)).length - 1) := by
  intro l
  induction l with
  | nil =>
    intro pre
    cases hp : pre.find? (fun e => e.hash == h) <;> simp [dupPairs]
  | cons fi rest ih =>
    intro pre
    by_cases hh : fi.hash = ""
    · have hfi : (fi.hash == h) = false := by
        rw [hh]
        exact beq_eq_false_iff_ne.mpr (Ne.symm hne)
      rw [dupPairs_cons_empty pre fi rest hh, ih (pre ++ [fi]),
          List.filter_cons_of_neg (by simp [hfi])]
      have hfind2 : (pre ++ [fi]).find? (fun e => e.hash == h)
          = pre.find? (fun e => e.hash == h) := by
        rw [List.find?_append]
        cases hp : pre.find? (fun e => e.hash == h) <;>
          simp [Option.or, List.find?_cons, hfi]
      rw [hfind2]
    · by_cases hfh : fi.hash = h
      · cases hfind : pre.find? (fun e => e.hash == fi.hash) with
        | some first =>
          rw [dupPairs_cons_found pre fi first rest hh hfind,
              List.filter_cons_of_pos (by show (fi.hash == h) = true; simp [hfh]),
              List.filter_cons_of_pos (by show (fi.hash == h) = true; simp [hfh])]
          rw [show pre.find? (fun e => e.hash == h)
              = pre.find? (fun e => e.hash == fi.hash) from by rw [hfh]]
          rw [hfind]
          have := ih pre
          rw [show pre.find? (fun e => e.hash == h)
              = pre.find? (fun e => e.hash == fi.hash) from by rw [hfh], hfind] at this
          simp only [Option.isSome_some, if_true] at this ⊢
          simp [this]
        | none =>
          rw [dupPairs_cons_fresh pre fi rest hh hfind, ih (pre ++ [fi])]
          have hfind2 : (pre ++ [fi]).find? (fun e => e.hash == h) = some fi := by
            rw [List.find?_append,
                show pre.find? (fun e => e.hash == h)
                  = pre.find? (fun e => e.hash == fi.hash) from by rw [hfh], hfind]
            simp [Option.or, List.find?_cons, hfh]
          rw [hfind2,
              show pre.find? (fun e => e.hash == h)
                = pre.find? (fun e => e.hash == fi.hash) from by rw [hfh], hfind,
              List.filter_cons_of_pos (by show (fi.hash == h) = true; simp [hfh])]
          simp
      · have hfi : (fi.hash == h) = false := beq_eq_false_iff_ne.mpr hfh
        have hfind2 : (pre ++ [fi]).find? (fun e => e.hash == h)
            = pre.find? (fun e => e.hash == h) := by
          rw [List.find?_append]
          cases hp : pre.find? (fun e => e.hash == h) <;>
            simp [Option.or, List.find?_cons, hfi]
        cases hfind : pre.find? (fun e => e.hash == fi.hash) with
        | some first =>
          rw [dupPairs_cons_found pre fi first rest hh hfind]
          have hpr : (fi.hash == h) = false := beq_eq_false_iff_ne.mpr hfh
          rw [List.filter_cons_of_neg (by simp [hpr]),
              List.filter_cons_of_neg (by simp [hfi])]
          exact ih pre
        | none =>
          rw [dupPairs_cons_fresh pre fi rest hh hfind, ih (pre ++ [fi]),
              hfind2, List.filter_cons_of_neg (by simp [hfi])]

end PlexScan

namespace PlexScan

/-- C8: `find_duplicates` implements pairwise first-occurrence reporting:
it equals the declarative `dupPairs` spec; every reported pair shares one
nonempty hash and its first component is the first-seen entry of that hash
in visit order (so entries with empty/unreadable hash are never matched,
and the first-seen entry is the reference of every pair of its hash); a
hash carried by k entries yields exactly k-1 pairs; and the concrete
entries `[A(h1), B(h1), C(h2)]` yield exactly the single pair `(A, B)`,
never reporting C. -/
theorem C8_find_duplicates_pairwise :
    (∀ items : List ScanItem, find_duplicates items = dupPairs [] (allFiles items))
    ∧ (∀ (items : List ScanItem) (pr : FileInfo × FileInfo),
        pr ∈ find_duplicates items →
        pr.1.hash = pr.2.hash ∧ pr.2.hash ≠ ""
        ∧ (allFiles items).find? (fun e => e.hash == pr.1.hash) = some pr.1)
    ∧ (∀ (items : List ScanItem) (h : String), h ≠ "" →
        ((find_duplicates items).filter (fun pr => pr.2.hash == h)).length
          = ((allFiles items).filter (fun e => e.hash == h)).length - 1)
    ∧ find_duplicates exItems = [(fiA, fiB)] := by
  refine ⟨find_duplicates_eq_dupPairs, ?_, ?_, by decide⟩
  · intro items pr hmem
    rw [find_duplicates_eq_dupPairs items] at hmem
    have := dupPairs_mem (allFiles items) [] pr hmem
    rwa [List.nil_append] at this
  · intro items h hne
    rw [find_duplicates_eq_dupPairs items,
        dupPairs_count h hne (allFiles items) []]
    rw [show ([] : List FileInfo).find? (fun e => e.hash == h) = none from rfl]
    simp

/-- Witness for C8 at the concrete entries A, B, C. -/
theorem C8_witness :
    (fiA.hash = fiB.hash ∧ fiB.hash ≠ ""
      ∧ (allFiles exItems).find? (fun e => e.hash == fiA.hash) = some fiA)
    ∧ ((find_duplicates exItems).filter (fun pr => pr.2.hash == "h1")).length
        = ((allFiles exItems).filter (fun e => e.hash == "h1")).length - 1 :=
  ⟨C8_find_duplicates_pairwise.2.1 exItems (fiA, fiB) (by decide),
   C8_find_duplicates_pairwise.2.2.1 exItems "h1" (by decide)⟩

end PlexScan

namespace PlexFM

lemma sweep_foldl (cutoff : Int) :
    ∀ (l : List String) (acc : List String × List String × List FPath),
    l.foldl (fun (acc : List String × List String × List FPath) n =>
      if sweepRemoves cutoff n then
        (acc.1 ++ [n], acc.2.1,
         acc.2.2.filter (fun p =>
           match p with
           | FPath.backup ns _ => decide (ns ≠ n)
           | FPath.orig _ => true))
      else (acc.1, acc.2.1 ++ [n], acc.2.2)) acc
    = (acc.1 ++ l.filter (fun n => sweepRemoves cutoff n),
       acc.2.1 ++ l.filter (fun n => !(sweepRemoves cutoff n)),
       acc.2.2.filter (fun p =>
         match p with
         | FPath.backup ns _ => !(l.contains ns && sweepRemoves cutoff ns)
         | FPath.orig _ => true)) := by
  intro l
  induction l with
  | nil =>
    intro acc
    simp only [List.foldl_nil, List.filter_nil, List.append_nil]
    have : acc.2.2.filter (fun p =>
        match p with
        | FPath.backup ns _ => !(List.contains [] ns && sweepRemoves cutoff ns)
        | FPath.orig _ => true) = acc.2.2 := by
      rw [List.filter_eq_self]
      intro p hp
      cases p <;> simp [List.contains]
    rw [this]
  | cons n rest ih =>
    intro acc
    rw [List.foldl_cons]
    by_cases hn : sweepRemoves cutoff n
    · rw [if_pos hn, ih]
      simp only [Prod.mk.injEq]
      refine ⟨?_, ?_, ?_⟩
      · rw [List.filter_cons_of_pos (by simpa using hn), List.append_assoc]
        rfl
      · rw [List.filter_cons_of_neg (by simp [hn])]
      · rw [List.filter_filter]
        apply List.filter_congr
        intro p hp
        cases p with
        | orig q => rfl
        | backup ns nm =>
          show (!(rest.contains ns && sweepRemoves cutoff ns) && decide (ns ≠ n))
              = !((n :: rest).contains ns && sweepRemoves cutoff ns)
          by_cases hns : ns = n
          · subst hns
            simp [hn, List.contains_cons]
          · simp [List.contains_cons, hns]
    · rw [if_neg hn, ih]
      simp only [Prod.mk.injEq]
      refine ⟨?_, ?_, ?_⟩
      · rw [List.filter_cons_of_neg (by simpa using hn)]
      · rw [List.filter_cons_of_pos (by simp [hn]), List.append_assoc]
        rfl
      · apply List.filter_congr
        intro p hp
        cases p with
        | orig q => rfl
        | backup ns nm =>
          show (!(rest.contains ns && sweepRemoves cutoff ns))
              = !((n :: rest).contains ns && sweepRemoves cutoff ns)
          by_cases hns : ns = n
          · subst hns
            simp [List.contains_cons, hn]
          · simp [List.contains_cons, hns]

lemma sweep_char (s : FMState) (now : Int) (days : Nat) :
    (clean_old_backups s now days).1
        = s.namespaces.filter (fun n => sweepRemoves (now - (days : Int) * 86400) n)
    ∧ (clean_old_backups s now days).2.namespaces
        = s.namespaces.filter (fun n => !(sweepRemoves (now - (days : Int) * 86400) n))
    ∧ (clean_old_backups s now days).2.files
        = s.files.filter (fun p =>
            match p with
            | FPath.backup ns _ =>
                !(s.namespaces.contains ns
                  && sweepRemoves (now - (days : Int) * 86400) ns)
            | FPath.orig _ => true) := by
  unfold clean_old_backups
  dsimp only
  rw [sweep_foldl]
  exact ⟨by simp, by simp, by simp⟩

end PlexFM

namespace PlexFM

/-- C9: the retention sweep removes exactly the namespace directories whose
name parses to a timestamp strictly older than `now - days*86400`, and
reports precisely their names; directories whose names do not parse are
kept, never deleted; backups inside every removed namespace are deleted
recursively; with `max_age_days = 0` it removes all existing namespaces
(every namespace was created strictly before the sweep's clock reading);
and an immediately repeated sweep removes zero additional namespaces. -/
theorem C9_clean_old_backups (s : FMState) (now : Int) (days : Nat) :
    ((clean_old_backups s now days).1
        = s.namespaces.filter (fun n => sweepRemoves (now - (days : Int) * 86400) n))
    ∧ ((clean_old_backups s now days).2.namespaces
        = s.namespaces.filter
            (fun n => !(sweepRemoves (now - (days : Int) * 86400) n)))
    ∧ (∀ n ∈ s.namespaces, parseFolderName n = none →
        n ∈ (clean_old_backups s now days).2.namespaces)
    ∧ (∀ ns nm : String, ns ∈ (clean_old_backups s now days).1 →
        FPath.backup ns nm ∉ (clean_old_backups s now days).2.files)
    ∧ (days = 0 →
        (∀ n ∈ s.namespaces, ∃ ts, parseFolderName n = some ts ∧ ts < now) →
        (clean_old_backups s now days).2.namespaces = []
        ∧ (clean_old_backups s now days).1 = s.namespaces)
    ∧ (clean_old_backups (clean_old_backups s now days).2 now days).1 = [] := by
  obtain ⟨h1, h2, h3⟩ := sweep_char s now days
  refine ⟨h1, h2, ?_, ?_, ?_, ?_⟩
  · intro n hn hparse
    rw [h2, List.mem_filter]
    exact ⟨hn, by simp [sweepRemoves, hparse]⟩
  · intro ns nm hns hmem
    rw [h1, List.mem_filter] at hns
    rw [h3, List.mem_filter] at hmem
    obtain ⟨hns1, hns2⟩ := hns
    obtain ⟨hmem1, hmem2⟩ := hmem
    simp only at hmem2
    have hc : s.namespaces.contains ns = true := List.elem_iff.mpr hns1
    rw [hc, hns2] at hmem2
    simp at hmem2
  · intro hd hall
    subst hd
    constructor
    · rw [h2, List.filter_eq_nil_iff]
      intro n hn
      obtain ⟨ts, hts, hlt⟩ := hall n hn
      simp [sweepRemoves, hts]
      omega
    · rw [h1, List.filter_eq_self]
      intro n hn
      obtain ⟨ts, hts, hlt⟩ := hall n hn
      simp [sweepRemoves, hts]
      omega
  · obtain ⟨g1, g2, g3⟩ := sweep_char (clean_old_backups s now days).2 now days
    rw [g1, h2, List.filter_filter, List.filter_eq_nil_iff]
    intro n hn
    cases hsw : sweepRemoves (now - (days : Int) * 86400) n <;> simp [hsw]

/-- Witness for C9: a non-parsing directory name survives a sweep; a sweep
with `max_age_days = 0` over past-timestamped namespaces removes them all
and reports them; the repeated sweep removes nothing. -/
theorem C9_witness :
    "junk" ∈ (clean_old_backups exSweepJ 1577836801 0).2.namespaces
    ∧ (clean_old_backups exSweepS 1577836801 0).2.namespaces = []
    ∧ (clean_old_backups exSweepS 1577836801 0).1 = exSweepS.namespaces
    ∧ (clean_old_backups (clean_old_backups exSweepS 1577836801 0).2
        1577836801 0).1 = [] := by
  have hall : ∀ n ∈ exSweepS.namespaces,
      ∃ ts, parseFolderName n = some ts ∧ ts < (1577836801 : Int) := by
    intro n hn
    have hn2 : n = exTs := by simpa [exSweepS] using hn
    subst hn2
    exact ⟨1577836800, by decide, by decide⟩
  refine ⟨?_, ?_, ?_, ?_⟩
  · exact (C9_clean_old_backups exSweepJ 1577836801 0).2.2.1 "junk"
      (by decide) (by decide)
  · exact ((C9_clean_old_backups exSweepS 1577836801 0).2.2.2.2.1 rfl hall).1
  · exact ((C9_clean_old_backups exSweepS 1577836801 0).2.2.2.2.1 rfl hall).2
  · exact (C9_clean_old_backups exSweepS 1577836801 0).2.2.2.2.2

end PlexFM

namespace PlexFM

lemma mem_insertUnique {α : Type} [DecidableEq α] (a b : α) (l : List α) :
    a ∈ insertUnique b l ↔ a = b ∨ a ∈ l := by
  unfold insertUnique
  split
  · next hb =>
    constructor
    · exact fun h => Or.inr h
    · rintro (rfl | h)
      · exact hb
      · exact h
  · exact List.mem_cons

lemma nodup_insertUnique {α : Type} [DecidableEq α] (b : α) (l : List α)
    (h : l.Nodup) : (insertUnique b l).Nodup := by
  unfold insertUnique
  split
  · exact h
  · next hb => exact List.nodup_cons.mpr ⟨hb, h⟩

lemma good_mono (s : FMState) (uk uk2 : List (String × String))
    (hsub : ∀ k ∈ uk, k ∈ uk2) (h : GoodState s uk) : GoodState s uk2 where
  undoIff := h.undoIff
  bpShape := h.bpShape
  opKeys := fun i op hi => hsub _ (h.opKeys i op hi)
  keyInj := h.keyInj
  filesND := h.filesND
  bpKeys := fun ns nm hm => hsub _ (h.bpKeys ns nm hm)

lemma backup_ne_orig (ns nm p : String) : FPath.backup ns nm ≠ FPath.orig p := by
  intro h
  cases h

lemma good_delete (s : FMState) (ts p r : String)
    (uk : List (String × String)) (h : GoodState s uk)
    (hfresh : (ts, leafName p) ∉ uk) :
    GoodState (delete_file s ts p r).2 (uk ++ [(ts, leafName p)]) := by
  have hsub : ∀ k ∈ uk, k ∈ uk ++ [(ts, leafName p)] :=
    fun k hk => List.mem_append_left _ hk
  by_cases hm : FPath.orig p ∈ s.files
  · rw [delete_file_of_mem s ts p r hm]
    set newOp : Operation :=
      { id := s.operations.length, timestamp := ts, action := "delete",
        original_path := p, backup_path := FPath.backup ts (leafName p),
        reason := r, can_undo := true, undone_at := none,
        permanently_deleted := false } with hnewOp
    set bp : FPath := FPath.backup ts (leafName p) with hbp
    have hbmem : ∀ q : FPath,
        (q ∈ insertUnique bp (s.files.erase (FPath.orig p))) ↔
          (q = bp ∨ q ∈ s.files.erase (FPath.orig p)) :=
      fun q => mem_insertUnique q bp _
    have hget : ∀ (j : Nat) (op : Operation),
        (s.operations ++ [newOp])[j]? = some op →
        (j < s.operations.length ∧ s.operations[j]? = some op)
        ∨ (j = s.operations.length ∧ op = newOp) := by
      intro j op hj
      rw [List.getElem?_append] at hj
      split at hj
      · next hlt => exact Or.inl ⟨hlt, hj⟩
      · next hge =>
        by_cases hj2 : j = s.operations.length
        · rw [hj2, Nat.sub_self] at hj
          simp only [List.getElem?_cons_zero] at hj
          cases hj
          exact Or.inr ⟨hj2, rfl⟩
        · rw [List.getElem?_eq_none (by simp; omega)] at hj
          cases hj
    have holdbp : ∀ (j : Nat) (op : Operation), s.operations[j]? = some op →
        op.backup_path ≠ bp := by
      intro j op hj hc
      have hsh := h.bpShape j op hj
      rw [hsh] at hc
      have : opKey op = (ts, leafName p) := by
        unfold opKey
        injection hc with h1 h2
        rw [h1, h2]
      exact hfresh (this ▸ h.opKeys j op hj)
    have hmemtrans : ∀ (j : Nat) (op : Operation), s.operations[j]? = some op →
        (op.backup_path ∈ insertUnique bp (s.files.erase (FPath.orig p))
          ↔ op.backup_path ∈ s.files) := by
      intro j op hj
      rw [hbmem]
      have hne : op.backup_path ≠ FPath.orig p := by
        rw [h.bpShape j op hj]
        exact backup_ne_orig _ _ _
      constructor
      · rintro (hc | hc)
        · exact absurd hc (holdbp j op hj)
        · exact List.mem_of_mem_erase hc
      · intro hc
        exact Or.inr ((List.mem_erase_of_ne hne).mpr hc)
    constructor
    · intro j op hj
      rcases hget j op hj with ⟨hlt, hj2⟩ | ⟨hj2, rfl⟩
      · rw [hmemtrans j op hj2]
        exact h.undoIff j op hj2
      · constructor
        · intro _
          exact (hbmem _).mpr (Or.inl rfl)
        · intro _
          trivial
    · intro j op hj
      rcases hget j op hj with ⟨hlt, hj2⟩ | ⟨hj2, rfl⟩
      · exact h.bpShape j op hj2
      · rfl
    · intro j op hj
      rcases hget j op hj with ⟨hlt, hj2⟩ | ⟨hj2, rfl⟩
      · exact hsub _ (h.opKeys j op hj2)
      · exact List.mem_append_right _ (List.mem_singleton.mpr rfl)
    · intro i j op1 op2 hi hj hij
      rcases hget i op1 hi with ⟨hlt1, hi2⟩ | ⟨hi2, rfl⟩ <;>
        rcases hget j op2 hj with ⟨hlt2, hj2⟩ | ⟨hj2, rfl⟩
      · exact h.keyInj i j op1 op2 hi2 hj2 hij
      · intro hc
        apply hfresh
        have hk := h.opKeys i op1 hi2
        rw [hc] at hk
        exact hk
      · intro hc
        apply hfresh
        have hk := h.opKeys j op2 hj2
        rw [← hc] at hk
        exact hk
      · exact absurd (hi2.trans hj2.symm) hij
    · exact nodup_insertUnique _ _ (h.filesND.erase _)
    · intro ns nm hmm
      rw [hbmem] at hmm
      rcases hmm with hc | hc
      · have h1 : ns = ts ∧ nm = leafName p := by
          rw [hbp] at hc
          injection hc with e1 e2
          exact ⟨e1, e2⟩
        rw [h1.1, h1.2]
        exact List.mem_append_right _ (List.mem_singleton.mpr rfl)
      · exact hsub _ (h.bpKeys ns nm (List.mem_of_mem_erase hc))
  · rw [delete_file_of_not_mem s ts p r hm]
    exact good_mono s uk _ hsub h

end PlexFM

namespace PlexFM

lemma good_set_update (s : FMState) (uk : List (String × String))
    (h : GoodState s uk) (idx : Nat) (op op2 : Operation)
    (hop : s.operations[idx]? = some op)
    (hts : op2.timestamp = op.timestamp)
    (hor : op2.original_path = op.original_path)
    (hbp2 : op2.backup_path = op.backup_path)
    (hcu2 : op2.can_undo = false)
    (files2 : List FPath)
    (hsubset : ∀ q : FPath, q ∈ files2 →
      (q ≠ op.backup_path ∧ q ∈ s.files) ∨ q = FPath.orig op.original_path)
    (hsuper : ∀ q : FPath, q ≠ op.backup_path → q ∈ s.files → q ∈ files2)
    (hnd2 : files2.Nodup) :
    GoodState { s with operations := s.operations.set idx op2,
                       files := files2 } uk := by
  have hlt : idx < s.operations.length :=
    List.getElem?_eq_some_iff.mp hop |>.choose
  have hget : ∀ (j : Nat) (opj : Operation),
      (s.operations.set idx op2)[j]? = some opj →
      (j = idx ∧ opj = op2) ∨ (j ≠ idx ∧ s.operations[j]? = some opj) := by
    intro j opj hj
    by_cases hji : j = idx
    · subst hji
      rw [List.getElem?_set_self hlt] at hj
      cases hj
      exact Or.inl ⟨rfl, rfl⟩
    · rw [List.getElem?_set_ne (fun hh => hji hh.symm)] at hj
      exact Or.inr ⟨hji, hj⟩
  have holdne : ∀ (j : Nat) (opj : Operation), s.operations[j]? = some opj →
      j ≠ idx → opj.backup_path ≠ op.backup_path := by
    intro j opj hj hji hc
    have hkey := h.keyInj j idx opj op hj hop hji
    apply hkey
    have h1 := h.bpShape j opj hj
    have h2 := h.bpShape idx op hop
    rw [h1, h2] at hc
    injection hc with e1 e2
    unfold opKey
    rw [e1, e2]
  constructor
  · intro j opj hj
    rcases hget j opj hj with ⟨hji, hje⟩ | ⟨hji, hj2⟩
    · rw [hje, hcu2]
      constructor
      · intro hc
        cases hc
      · intro hc
        exfalso
        rcases hsubset _ hc with ⟨hne, _⟩ | heq
        · exact hne hbp2
        · rw [hbp2, h.bpShape idx op hop] at heq
          cases heq
    · have hne := holdne j opj hj2 hji
      have hmemiff : opj.backup_path ∈ files2 ↔ opj.backup_path ∈ s.files := by
        constructor
        · intro hq
          rcases hsubset _ hq with ⟨_, hmm⟩ | heq
          · exact hmm
          · exfalso
            rw [h.bpShape j opj hj2] at heq
            cases heq
        · intro hmm
          exact hsuper _ hne hmm
      exact (h.undoIff j opj hj2).trans hmemiff.symm
  · intro j opj hj
    rcases hget j opj hj with ⟨hji, hje⟩ | ⟨hji, hj2⟩
    · rw [hje, hbp2, hts, hor]
      exact h.bpShape idx op hop
    · exact h.bpShape j opj hj2
  · intro j opj hj
    rcases hget j opj hj with ⟨hji, hje⟩ | ⟨hji, hj2⟩
    · have hkeq : opKey op2 = opKey op := by
        unfold opKey
        rw [hts, hor]
      rw [hje, hkeq]
      exact h.opKeys idx op hop
    · exact h.opKeys j opj hj2
  · intro i j op1 opj hi hj hij
    have hkeq : opKey op2 = opKey op := by
      unfold opKey
      rw [hts, hor]
    rcases hget i op1 hi with ⟨hii, hie⟩ | ⟨hii, hi2⟩ <;>
      rcases hget j opj hj with ⟨hjj, hje⟩ | ⟨hjj, hj2⟩
    · exact absurd (hii.trans hjj.symm) hij
    · rw [hie, hkeq]
      exact h.keyInj idx j op opj hop hj2 (hii ▸ hij)
    · rw [hje, hkeq]
      exact h.keyInj i idx op1 op hi2 hop (hjj ▸ hij)
    · exact h.keyInj i j op1 opj hi2 hj2 hij
  · exact hnd2
  · intro ns nm hmm
    rcases hsubset _ hmm with ⟨_, hmm2⟩ | heq
    · exact h.bpKeys ns nm hmm2
    · cases heq

lemma good_undo (s : FMState) (now : String) (oid : Int)
    (uk : List (String × String)) (h : GoodState s uk) :
    GoodState (undo_operation s now oid).2 uk := by
  by_cases hg : (s.operations.length : Int) ≤ oid
  · have he : (undo_operation s now oid).2 = s := by
      unfold undo_operation
      rw [if_pos hg]
    rwa [he]
  · cases hpy : pyIndex s.operations.length oid with
    | none =>
      have he : (undo_operation s now oid).2 = s := by
        rw [undo_operation_pyNone s now oid hg hpy]
      rwa [he]
    | some idx =>
      have hlt := pyIndex_lt _ _ _ hg hpy
      have hop : s.operations[idx]? = some s.operations[idx] :=
        List.getElem?_eq_getElem hlt
      have heq := undo_operation_some s now oid idx _ hg hpy hop
      by_cases hcu : s.operations[idx].can_undo = false
      · have he : (undo_operation s now oid).2 = s := by
          rw [heq, if_pos hcu]
        rwa [he]
      · by_cases hbp : s.operations[idx].backup_path ∈ s.files
        · have he : (undo_operation s now oid).2 =
            { s with
              files := insertUnique (FPath.orig s.operations[idx].original_path)
                         (s.files.erase s.operations[idx].backup_path),
              operations := s.operations.set idx
                { s.operations[idx] with can_undo := false,
                                         undone_at := some now } } := by
            rw [heq, if_neg hcu, if_pos hbp]
          rw [he]
          refine good_set_update s uk h idx s.operations[idx]
            { s.operations[idx] with can_undo := false, undone_at := some now }
            hop rfl rfl rfl rfl _ ?_ ?_
            (nodup_insertUnique _ _ (h.filesND.erase _))
          · intro q hq
            rcases (mem_insertUnique q _ _).mp hq with rfl | hq2
            · exact Or.inr rfl
            · have := (h.filesND.mem_erase_iff).mp hq2
              exact Or.inl ⟨this.1, this.2⟩
          · intro q hne hmm
            exact (mem_insertUnique q _ _).mpr
              (Or.inr ((h.filesND.mem_erase_iff).mpr ⟨hne, hmm⟩))
        · have he : (undo_operation s now oid).2 = s := by
            rw [heq, if_neg hcu, if_neg hbp]
          rwa [he]

lemma good_purge (s : FMState) (oid : Int)
    (uk : List (String × String)) (h : GoodState s uk) :
    GoodState (permanently_delete_backup s oid).2 uk := by
  by_cases hg : (s.operations.length : Int) ≤ oid
  · have he : (permanently_delete_backup s oid).2 = s := by
      unfold permanently_delete_backup
      rw [if_pos hg]
    rwa [he]
  · cases hpy : pyIndex s.operations.length oid with
    | none =>
      have he : (permanently_delete_backup s oid).2 = s := by
        rw [purge_pyNone s oid hg hpy]
      rwa [he]
    | some idx =>
      have hlt := pyIndex_lt _ _ _ hg hpy
      have hop : s.operations[idx]? = some s.operations[idx] :=
        List.getElem?_eq_getElem hlt
      have heq := purge_some s oid idx _ hg hpy hop
      by_cases hbp : s.operations[idx].backup_path ∈ s.files
      · have he : (permanently_delete_backup s oid).2 =
          { s with
            files := s.files.erase s.operations[idx].backup_path,
            operations := s.operations.set idx
              { s.operations[idx] with can_undo := false,
                                       permanently_deleted := true } } := by
          rw [heq, if_pos hbp]
        rw [he]
        refine good_set_update s uk h idx s.operations[idx]
          { s.operations[idx] with can_undo := false, permanently_deleted := true }
          hop rfl rfl rfl rfl _ ?_ ?_ (h.filesND.erase _)
        · intro q hq
          have := (h.filesND.mem_erase_iff).mp hq
          exact Or.inl ⟨this.1, this.2⟩
        · intro q hne hmm
          exact (h.filesND.mem_erase_iff).mpr ⟨hne, hmm⟩
      · have he : (permanently_delete_backup s oid).2 = s := by
          rw [heq, if_neg hbp]
        rwa [he]

end PlexFM

namespace PlexFM

lemma good_run : ∀ (evs : List Ev) (s : FMState) (uk : List (String × String)),
    GoodState s uk → (∀ e ∈ evs, e.isSweep = false) →
    (uk ++ evs.filterMap Ev.delKey?).Nodup →
    GoodState (run s evs) (uk ++ evs.filterMap Ev.delKey?) := by
  intro evs
  induction evs with
  | nil =>
    intro s uk h _ _
    simpa using h
  | cons e es ih =>
    intro s uk h hns hnd
    have hns2 : ∀ e2 ∈ es, e2.isSweep = false :=
      fun e2 he2 => hns e2 (List.mem_cons_of_mem e he2)
    have hrun : run s (e :: es) = run (applyEv s e) es := rfl
    cases e with
    | del ts p r =>
      have hfm : (Ev.del ts p r :: es).filterMap Ev.delKey?
          = (ts, leafName p) :: es.filterMap Ev.delKey? := by
        simp [List.filterMap_cons, Ev.delKey?]
      rw [hfm] at hnd ⊢
      have hfresh : (ts, leafName p) ∉ uk := by
        intro hmem
        exact (List.disjoint_of_nodup_append hnd) hmem (List.mem_cons_self _ _)
      have hnd2 : ((uk ++ [(ts, leafName p)]) ++ es.filterMap Ev.delKey?).Nodup := by
        rw [List.append_assoc, List.singleton_append]
        exact hnd
      have hstep := good_delete s ts p r uk h hfresh
      have hrec := ih (applyEv s (Ev.del ts p r)) (uk ++ [(ts, leafName p)])
        hstep hns2 hnd2
      rw [hrun,
          show uk ++ (ts, leafName p) :: es.filterMap Ev.delKey?
            = (uk ++ [(ts, leafName p)]) ++ es.filterMap Ev.delKey? from by
        rw [List.append_assoc, List.singleton_append]]
      exact hrec
    | undo now2 oid =>
      have hfm : (Ev.undo now2 oid :: es).filterMap Ev.delKey?
          = es.filterMap Ev.delKey? := by
        simp [List.filterMap_cons, Ev.delKey?]
      rw [hfm] at hnd ⊢
      rw [hrun]
      exact ih (applyEv s (Ev.undo now2 oid)) uk (good_undo s now2 oid uk h)
        hns2 hnd
    | purge oid =>
      have hfm : (Ev.purge oid :: es).filterMap Ev.delKey?
          = es.filterMap Ev.delKey? := by
        simp [List.filterMap_cons, Ev.delKey?]
      rw [hfm] at hnd ⊢
      rw [hrun]
      exact ih (applyEv s (Ev.purge oid)) uk (good_purge s oid uk h) hns2 hnd
    | sweep now2 days =>
      exact absurd (hns _ (List.mem_cons_self _ _)) (by simp [Ev.isSweep])

/-- C1 (amended): for every state reached from a fresh engine by delete,
undo and purge calls alone — no retention sweep — in which no two delete
calls share a backup destination (the same timestamp namespace and leaf
filename), every Operation of the log satisfies the backup-existence
contract: its backup file exists on disk exactly when `can_undo = true`.
A retention sweep breaks the contract (see the counterexample), as does a
backup-destination collision, which the spec's design notes flag as a
known bug of the source. -/
theorem C1_amended_backup_invariant (origs : List String) (evs : List Ev)
    (hnd0 : origs.Nodup)
    (hns : ∀ e ∈ evs, e.isSweep = false)
    (hkeys : (evs.filterMap Ev.delKey?).Nodup) :
    ∀ op ∈ (run (initState origs) evs).operations,
      (op.can_undo = true ↔ op.backup_path ∈ (run (initState origs) evs).files) := by
  have h0 : GoodState (initState origs) [] := by
    constructor
    · intro i op hop
      simp [initState] at hop
    · intro i op hop
      simp [initState] at hop
    · intro i op hop
      simp [initState] at hop
    · intro i j op1 op2 hi hj hij
      simp [initState] at hi
    · exact hnd0.map (fun a b hab => by injection hab)
    · intro ns nm hmm
      simp only [initState] at hmm
      obtain ⟨x, _, hx⟩ := List.mem_map.mp hmm
      cases hx
  have hg := good_run evs (initState origs) [] h0 hns (by simpa using hkeys)
  intro op hop
  obtain ⟨i, hi⟩ := List.mem_iff_getElem?.mp hop
  exact hg.undoIff i op hi

/-- C1 counterexample: delete a file, then run a retention sweep with
`max_age_days = 0` at a strictly later clock reading.  The resulting state
is reachable, its single Operation still has `can_undo = true`, yet its
backup file is gone from disk — the backup-existence contract is violated
by the sweep. -/
theorem C1_counterexample :
    Reachable exC1
    ∧ exC1.operations.map Operation.can_undo = [true]
    ∧ exC1.operations.map (fun o => decide (o.backup_path ∈ exC1.files))
        = [false] := by
  refine ⟨⟨["p"], [Ev.del exTs "p" "", Ev.sweep 1577836801 0], rfl⟩, ?_, ?_⟩
  · decide
  · decide

/-- Witness for C1 at a concrete sweep-free run (delete then undo): the
finalized operation's backup file is gone exactly as `can_undo = false`
says. -/
theorem C1_witness :
    opC3.can_undo = true
      ↔ opC3.backup_path
          ∈ (run (initState ["p"]) [Ev.del exTs "p" "", Ev.undo "t" 0]).files :=
  C1_amended_backup_invariant ["p"] [Ev.del exTs "p" "", Ev.undo "t" 0]
    (by decide) (by decide) (by decide) opC3 (by decide)

end PlexFM
